import Mathlib

/-!
Verification development for the `iters` slices package: shallow embedding of
`src/slices/sort.go` and `src/slices/keys.go` (search, binary search, sortedness
checks, the `Key` ordering adapter, clone-then-sort wrappers), together with a
spec-modelled sorting routine standing in for the pdqsort internals whose
bodies are not part of the sources at hand.

Go slices are modelled as `List`; Go `int` indices as `Nat` (the Go code only
ever forms non-negative indices here, and the `uint` cast in `search` exists
solely to avoid signed overflow, which `Nat` does not have); Go `bool` as
`Bool`; a Go comparison function `func(a, b E) bool` as `E → E → Bool` and
`func(E, E) int` as `E → E → Int`.  Go's `Ordered` constraint is modelled as
`LinearOrder`.  In-place mutation is modelled by returning the new contents.
-/

namespace Iters

/-- Embedding of the loop of `search` from `src/slices/sort.go` (lines 137-152):
`i, j := 0, n; for i < j { h := (i+j)/2; if !f(h) { i = h+1 } else { j = h } };
return i`.  The loop is written as well-founded recursion on `j - i`. -/
def searchLoop (f : Nat → Bool) (i j : Nat) : Nat :=
  if h : i < j then
    if !f ((i + j) / 2) then searchLoop f ((i + j) / 2 + 1) j
    else searchLoop f i ((i + j) / 2)
  else i
termination_by j - i
decreasing_by
  · omega
  · omega

/-- Embedding of `search` from `src/slices/sort.go`: returns the loop above
started at `i = 0, j = n`. -/
def search (n : Nat) (f : Nat → Bool) : Nat :=
  searchLoop f 0 n

/-- Embedding of `BinarySearch` from `src/slices/sort.go`, generalised by the
value `d` that an out-of-range element read would produce (`space[i]` panics in
Go; the development proves the result never depends on `d`, i.e. no
out-of-range access happens).  `pos := search(len(space), fun i => space[i] >=
target)`; then `if pos >= len(space) || space[pos] != target` return
`(pos, false)` else `(pos, true)`, with `||` short-circuiting. -/
def binarySearchD [LinearOrder α] (d target : α) (space : List α) : Nat × Bool :=
  let pos := search space.length fun i => decide (space.getD i d ≥ target)
  if pos ≥ space.length then (pos, false)
  else if space.getD pos d ≠ target then (pos, false)
  else (pos, true)

/-- Embedding of `BinarySearch` from `src/slices/sort.go`; the junk value for
an out-of-range read is (arbitrarily) `target`. -/
def BinarySearch [LinearOrder α] (target : α) (space : List α) : Nat × Bool :=
  binarySearchD target target space

/-- Embedding of `BinarySearchFunc` from `src/slices/sort.go`, generalised by
the junk value `d` as in `binarySearchD`.  `pos := search(len(space), fun i =>
cmp(space[i], target) >= 0)`; then `if pos >= len(space) || cmp(space[pos],
target) != 0` return `(pos, false)` else `(pos, true)`. -/
def binarySearchFuncD (cmp : α → α → Int) (d target : α) (space : List α) : Nat × Bool :=
  let pos := search space.length fun i => decide (cmp (space.getD i d) target ≥ 0)
  if pos ≥ space.length then (pos, false)
  else if cmp (space.getD pos d) target ≠ 0 then (pos, false)
  else (pos, true)

/-- Embedding of `BinarySearchFunc` from `src/slices/sort.go`. -/
def BinarySearchFunc (cmp : α → α → Int) (target : α) (space : List α) : Nat × Bool :=
  binarySearchFuncD cmp target target space

/-- Embedding of `IsSorted` from `src/slices/sort.go`: the Go loop walks the
indices `len(x)-1, …, 1` and returns `false` iff it finds `x[i] < x[i-1]`;
structurally that is a check of every adjacent pair, written here as structural
recursion over the list. -/
def IsSorted [LinearOrder α] : List α → Bool
  | a :: b :: t => if b < a then false else IsSorted (b :: t)
  | _ => true

/-- Embedding of `IsSortedFunc` from `src/slices/sort.go`: same loop as
`IsSorted` with `less(x[i], x[i-1])` in place of `x[i] < x[i-1]`. -/
def IsSortedFunc (less : α → α → Bool) : List α → Bool
  | a :: b :: t => if less b a then false else IsSortedFunc less (b :: t)
  | _ => true

/-- Embedding of `Key` from `src/slices/keys.go`:
`type Key[I any, O rules.Ordered] func(I) O`. -/
abbrev Key (I : Type u) (O : Type v) : Type (max u v) := I → O

/-- Embedding of `Key.Lt`: `k(left) < k(right)`. -/
def Key.Lt [LinearOrder O] (k : Key I O) (left right : I) : Bool :=
  decide (k left < k right)

/-- Embedding of `Key.Le`: `k(left) <= k(right)`. -/
def Key.Le [LinearOrder O] (k : Key I O) (left right : I) : Bool :=
  decide (k left ≤ k right)

/-- Embedding of `Key.Gt`: `k(left) > k(right)`. -/
def Key.Gt [LinearOrder O] (k : Key I O) (left right : I) : Bool :=
  decide (k left > k right)

/-- Embedding of `Key.Ge`: `k(left) >= k(right)`. -/
def Key.Ge [LinearOrder O] (k : Key I O) (left right : I) : Bool :=
  decide (k left ≥ k right)

/-- Embedding of `Key.Eq`: `k(left) == k(right)`. -/
def Key.Eq [LinearOrder O] (k : Key I O) (left right : I) : Bool :=
  decide (k left = k right)

/-- Embedding of `Key.Ne`: `k(left) != k(right)`. -/
def Key.Ne [LinearOrder O] (k : Key I O) (left right : I) : Bool :=
  decide (k left ≠ k right)

/-- Embedding of `Key.Cmp`: `if l == r then 0 else if l < r then -1 else 1`
on the extracted keys. -/
def Key.Cmp [LinearOrder O] (k : Key I O) (left right : I) : Int :=
  if k left = k right then 0
  else if k left < k right then -1
  else 1

/-- Embedding of `Clone` from the slices package (`src/slices/README.md`):
`nil` maps to `nil`, otherwise a fresh element-by-element copy. -/
def Clone : List α → List α
  | [] => []
  | x :: xs => x :: Clone xs

/-- Relation used by the spec-modelled sorts: place `a` no later than `b`
exactly when `b` is not strictly less than `a`. -/
def notLess (less : α → α → Bool) : α → α → Prop :=
  fun a b => less b a = false

instance (less : α → α → Bool) : DecidableRel (notLess less) :=
  fun _ _ => instDecidableEqBool _ _

/-- Modelled from the spec: the body of `pdqsortLessFunc`, the sorting engine
called by `SortFunc` (`src/slices/sort.go` line 41), is not among the sources
at hand — only its caller is.  Sections 3 and 8 of the spec require `SortFunc`
to produce a permutation of its input with no inversion under `less`; this
model realises that contract by insertion sort, inserting each element before
the first already-placed element that is not strictly less than it. -/
def SortFunc (less : α → α → Bool) (x : List α) : List α :=
  x.insertionSort (notLess less)

/-- Modelled from the spec: `Sort` calls `pdqsortOrdered` (`src/slices/sort.go`
line 20), whose body is likewise not among the sources at hand; per the spec it
sorts ascending under the element type's natural order, i.e. it is `SortFunc`
with `<` as the less function. -/
def Sort' [LinearOrder α] (x : List α) : List α :=
  SortFunc (fun a b => decide (a < b)) x

/-- Embedding of `Sorted` from `src/slices/sort.go`: clone, sort the clone,
return it (the sorting step being the spec-modelled `Sort'`). -/
def Sorted [LinearOrder α] (x : List α) : List α :=
  Sort' (Clone x)

/-- Embedding of `SortedFunc` from `src/slices/sort.go`: clone, sort the clone
with `less`, return it (the sorting step being the spec-modelled `SortFunc`). -/
def SortedFunc (less : α → α → Bool) (x : List α) : List α :=
  SortFunc less (Clone x)

/-- Modelled from the spec: the body of `stableLessFunc`, the engine called by
`SortStableFunc` (`src/slices/sort.go` line 65), is not among the sources at
hand.  Section 4.6 of the spec requires ascending order with the original
relative order of equivalent elements preserved; insertion sort with the
`notLess` insertion policy is such a stable sort (each element is inserted
before every already-placed element that is not strictly below it, and the
already-placed elements are exactly the later ones in the original order). -/
def SortStableFunc (less : α → α → Bool) (x : List α) : List α :=
  x.insertionSort (notLess less)

/-! ### Helper lemmas about `searchLoop` -/

theorem searchLoop_stop (f : Nat → Bool) (i j : Nat) (h : ¬ i < j) :
    searchLoop f i j = i := by
  rw [searchLoop]
  simp [h]

theorem searchLoop_step_false (f : Nat → Bool) (i j : Nat) (hij : i < j)
    (hf : f ((i + j) / 2) = false) :
    searchLoop f i j = searchLoop f ((i + j) / 2 + 1) j := by
  rw [searchLoop]
  simp [hij, hf]

theorem searchLoop_step_true (f : Nat → Bool) (i j : Nat) (hij : i < j)
    (hf : f ((i + j) / 2) = true) :
    searchLoop f i j = searchLoop f i ((i + j) / 2) := by
  rw [searchLoop]
  simp [hij, hf]

theorem searchLoop_congrAux (f g : Nat → Bool) :
    ∀ (d i j : Nat), j - i ≤ d → (∀ m, i ≤ m → m < j → f m = g m) →
      searchLoop f i j = searchLoop g i j := by
  intro d
  induction d with
  | zero =>
    intro i j hd _
    have h : ¬ i < j := by omega
    rw [searchLoop_stop f i j h, searchLoop_stop g i j h]
  | succ d ih =>
    intro i j hd hagree
    by_cases hij : i < j
    · have hmid : i ≤ (i + j) / 2 ∧ (i + j) / 2 < j := by omega
      have hfg : f ((i + j) / 2) = g ((i + j) / 2) := hagree _ hmid.1 hmid.2
      cases hval : f ((i + j) / 2) with
      | false =>
        rw [searchLoop_step_false f i j hij hval,
          searchLoop_step_false g i j hij (hfg ▸ hval)]
        exact ih _ _ (by omega) fun m hm hm' => hagree m (by omega) hm'
      | true =>
        rw [searchLoop_step_true f i j hij hval,
          searchLoop_step_true g i j hij (hfg ▸ hval)]
        exact ih _ _ (by omega) fun m hm hm' => hagree m hm (by omega)
    · rw [searchLoop_stop f i j hij, searchLoop_stop g i j hij]

theorem search_congr (n : Nat) (f g : Nat → Bool)
    (hagree : ∀ m, m < n → f m = g m) : search n f = search n g :=
  searchLoop_congrAux f g n 0 n (by omega) fun m _ hm => hagree m hm

theorem searchLoop_invAux (f : Nat → Bool) (n : Nat)
    (hmono : ∀ p q, p ≤ q → q < n → f p = true → f q = true) :
    ∀ (d i j : Nat), j - i ≤ d → i ≤ j → j ≤ n →
      (∀ m, m < i → m < n → f m = false) →
      (∀ m, j ≤ m → m < n → f m = true) →
      i ≤ searchLoop f i j ∧ searchLoop f i j ≤ j ∧
        (∀ m, m < searchLoop f i j → m < n → f m = false) ∧
        (∀ m, searchLoop f i j ≤ m → m < n → f m = true) := by
  intro d
  induction d with
  | zero =>
    intro i j hd hij hjn hlo hhi
    have h : ¬ i < j := by omega
    rw [searchLoop_stop f i j h]
    exact ⟨le_refl i, hij, hlo, fun m hm hm' => hhi m (by omega) hm'⟩
  | succ d ih =>
    intro i j hd hij hjn hlo hhi
    by_cases hlt : i < j
    · have hmid : i ≤ (i + j) / 2 ∧ (i + j) / 2 < j := by omega
      cases hval : f ((i + j) / 2) with
      | false =>
        rw [searchLoop_step_false f i j hlt hval]
        refine (ih ((i + j) / 2 + 1) j (by omega) (by omega) hjn ?_ hhi).imp
          (fun h => by omega) fun h => h
        intro m hm hmn
        rcases Nat.lt_or_ge m i with hmi | hmi
        · exact hlo m hmi hmn
        · cases hfm : f m with
          | false => rfl
          | true =>
            have : f ((i + j) / 2) = true :=
              hmono m ((i + j) / 2) (by omega) (by omega) hfm
            rw [hval] at this
            exact absurd this (by simp)
      | true =>
        rw [searchLoop_step_true f i j hlt hval]
        refine (ih i ((i + j) / 2) (by omega) (by omega) (by omega) hlo ?_).imp
          (fun h => h) fun h => ⟨by omega, h.2⟩
        intro m hm hmn
        exact hmono ((i + j) / 2) m hm hmn hval
    · rw [searchLoop_stop f i j hlt]
      exact ⟨le_refl i, hij, hlo, fun m hm hm' => hhi m (by omega) hm'⟩

theorem search_inv (f : Nat → Bool) (n : Nat)
    (hmono : ∀ p q, p ≤ q → q < n → f p = true → f q = true) :
    search n f ≤ n ∧
      (∀ m, m < search n f → m < n → f m = false) ∧
      (∀ m, search n f ≤ m → m < n → f m = true) := by
  have h := searchLoop_invAux f n hmono n 0 n (by omega) (by omega) (le_refl n)
    (fun m hm _ => absurd hm (by omega)) (fun m hm hm' => absurd hm (by omega))
  exact ⟨h.2.1, h.2.2⟩

/-! ### Helper lemmas about sortedness checks -/

theorem isSortedFunc_iff_chain (less : α → α → Bool) :
    ∀ l : List α, IsSortedFunc less l = true ↔ l.Chain' (notLess less) := by
  intro l
  induction l with
  | nil => simp [IsSortedFunc]
  | cons a t ih =>
    cases t with
    | nil => simp [IsSortedFunc]
    | cons b t' =>
      rw [IsSortedFunc, List.chain'_cons]
      cases hba : less b a with
      | false => simpa [hba, notLess] using ih
      | true => simp [hba, notLess]

theorem isSorted_eq_isSortedFunc [LinearOrder α] :
    ∀ l : List α, IsSorted l = IsSortedFunc (fun a b => decide (a < b)) l := by
  intro l
  induction l with
  | nil => rfl
  | cons a t ih =>
    cases t with
    | nil => rfl
    | cons b t' =>
      rw [IsSorted, IsSortedFunc]
      by_cases hba : b < a
      · simp [hba]
      · simpa [hba] using ih

theorem clone_eq (l : List α) : Clone l = l := by
  induction l with
  | nil => rfl
  | cons a t ih => rw [Clone, ih]

/-! ### Helper lemmas about the spec-modelled sorts -/

theorem notLess_total (less : α → α → Bool)
    (h₁ : ∀ a b, less a b = true → less b a = false) :
    ∀ a b, notLess less a b ∨ notLess less b a := by
  intro a b
  cases h : less b a with
  | false => exact Or.inl h
  | true => exact Or.inr (h₁ b a h)

theorem notLess_trans (less : α → α → Bool)
    (h₂ : ∀ a b c, less b a = false → less c b = false → less c a = false) :
    ∀ a b c, notLess less a b → notLess less b c → notLess less a c :=
  fun a b c hab hbc => h₂ a b c hab hbc

theorem sortFunc_pairwise (less : α → α → Bool)
    (h₁ : ∀ a b, less a b = true → less b a = false)
    (h₂ : ∀ a b c, less b a = false → less c b = false → less c a = false)
    (x : List α) : (SortFunc less x).Pairwise (notLess less) := by
  haveI : IsTotal α (notLess less) := ⟨notLess_total less h₁⟩
  haveI : IsTrans α (notLess less) := ⟨notLess_trans less h₂⟩
  exact List.sorted_insertionSort (notLess less) x

theorem sortFunc_perm (less : α → α → Bool) (x : List α) :
    (SortFunc less x).Perm x :=
  List.perm_insertionSort (notLess less) x

theorem sortFunc_isSortedFunc (less : α → α → Bool)
    (h₁ : ∀ a b, less a b = true → less b a = false)
    (h₂ : ∀ a b c, less b a = false → less c b = false → less c a = false)
    (x : List α) : IsSortedFunc less (SortFunc less x) = true := by
  haveI : IsTrans α (notLess less) := ⟨notLess_trans less h₂⟩
  rw [isSortedFunc_iff_chain]
  exact List.chain'_iff_pairwise.mpr (sortFunc_pairwise less h₁ h₂ x)

theorem lt_asymm_bool [LinearOrder α] :
    ∀ a b : α, decide (a < b) = true → decide (b < a) = false := by
  intro a b h
  simp only [decide_eq_true_eq] at h
  simpa using le_of_lt h

theorem not_lt_trans_bool [LinearOrder α] :
    ∀ a b c : α, decide (b < a) = false → decide (c < b) = false →
      decide (c < a) = false := by
  intro a b c hab hbc
  simp only [decide_eq_false_iff_not, not_lt] at hab hbc ⊢
  exact le_trans hab hbc

/-! ### Helper lemmas for stability -/

/-- Stability invariant on index-tagged elements: whenever two elements are
equivalent under `less` (neither is less than the other), their tags are in
increasing order. -/
def tagOrdered (less : β → β → Bool) : ℕ × β → ℕ × β → Prop :=
  fun p q => less p.2 q.2 = false → less q.2 p.2 = false → p.1 < q.1

theorem pairwise_orderedInsert_tagOrdered (less : β → β → Bool) (x : ℕ × β) :
    ∀ l : List (ℕ × β), (∀ y ∈ l, tagOrdered less x y) →
      l.Pairwise (tagOrdered less) →
      (l.orderedInsert (notLess fun p q => less p.2 q.2) x).Pairwise (tagOrdered less) := by
  intro l
  induction l with
  | nil =>
    intro _ _
    exact List.pairwise_singleton _ x
  | cons y ys ih =>
    intro hx hpw
    rw [List.pairwise_cons] at hpw
    by_cases hr : notLess (fun p q : ℕ × β => less p.2 q.2) x y
    · rw [List.orderedInsert_of_le _ _ hr]
      exact List.Pairwise.cons hx (List.Pairwise.cons hpw.1 hpw.2)
    · have hyx : less y.2 x.2 = true := by
        cases h : less y.2 x.2 with
        | false => exact absurd h hr
        | true => rfl
      rw [List.orderedInsert, if_neg hr]
      refine List.Pairwise.cons ?_ (ih (fun z hz => hx z (List.mem_cons_of_mem y hz)) hpw.2)
      intro z hz
      rcases (List.mem_orderedInsert _).mp hz with hz | hz
      · subst hz
        intro h _
        rw [hyx] at h
        cases h
      · exact hpw.1 z hz

theorem pairwise_insertionSort_tagOrdered (less : β → β → Bool) :
    ∀ l : List (ℕ × β), l.Pairwise (tagOrdered less) →
      (l.insertionSort (notLess fun p q => less p.2 q.2)).Pairwise (tagOrdered less) := by
  intro l
  induction l with
  | nil =>
    intro _
    exact List.Pairwise.nil
  | cons x xs ih =>
    intro hpw
    rw [List.pairwise_cons] at hpw
    rw [List.insertionSort]
    refine pairwise_orderedInsert_tagOrdered less x _ ?_ (ih hpw.2)
    intro y hy
    exact hpw.1 y ((List.mem_insertionSort _).mp hy)

theorem le_fst_of_mem_enumFromAux :
    ∀ (l : List β) (n : ℕ) (p : ℕ × β), p ∈ l.enumFrom n → n ≤ p.1 := by
  intro l
  induction l with
  | nil =>
    intro n p hp
    cases hp
  | cons a t ih =>
    intro n p hp
    rw [List.enumFrom_cons] at hp
    rcases List.mem_cons.mp hp with hp | hp
    · subst hp
      exact le_refl n
    · exact le_trans (by omega) (ih (n + 1) p hp)

theorem pairwise_fst_lt_enumFrom :
    ∀ (l : List β) (n : ℕ), (l.enumFrom n).Pairwise fun p q => p.1 < q.1 := by
  intro l
  induction l with
  | nil =>
    intro n
    exact List.Pairwise.nil
  | cons a t ih =>
    intro n
    rw [List.enumFrom_cons]
    refine List.Pairwise.cons ?_ (ih (n + 1))
    intro q hq
    have := le_fst_of_mem_enumFromAux t (n + 1) q hq
    omega

theorem pairwise_fst_lt_enum (l : List β) :
    l.enum.Pairwise fun p q => p.1 < q.1 :=
  pairwise_fst_lt_enumFrom l 0

theorem binarySearchD_read_irrelevant [LinearOrder α] (d₁ d₂ target : α)
    (space : List α) :
    binarySearchD d₁ target space = binarySearchD d₂ target space := by
  have hpos : search space.length (fun i => decide (space.getD i d₁ ≥ target)) =
      search space.length fun i => decide (space.getD i d₂ ≥ target) := by
    refine search_congr _ _ _ ?_
    intro m hm
    rw [List.getD_eq_getElem space d₁ hm, List.getD_eq_getElem space d₂ hm]
  simp only [binarySearchD, hpos]
  by_cases hge : search space.length (fun i => decide (space.getD i d₂ ≥ target)) ≥
      space.length
  · rw [if_pos hge, if_pos hge]
  · have hlt : search space.length (fun i => decide (space.getD i d₂ ≥ target)) <
        space.length := by omega
    rw [if_neg hge, if_neg hge, List.getD_eq_getElem space d₁ hlt,
      List.getD_eq_getElem space d₂ hlt]

theorem binarySearchFuncD_read_irrelevant (cmp : α → α → Int) (d₁ d₂ target : α)
    (space : List α) :
    binarySearchFuncD cmp d₁ target space = binarySearchFuncD cmp d₂ target space := by
  have hpos : search space.length (fun i => decide (cmp (space.getD i d₁) target ≥ 0)) =
      search space.length fun i => decide (cmp (space.getD i d₂) target ≥ 0) := by
    refine search_congr _ _ _ ?_
    intro m hm
    rw [List.getD_eq_getElem space d₁ hm, List.getD_eq_getElem space d₂ hm]
  simp only [binarySearchFuncD, hpos]
  by_cases hge : search space.length (fun i => decide (cmp (space.getD i d₂) target ≥ 0)) ≥
      space.length
  · rw [if_pos hge, if_pos hge]
  · have hlt : search space.length (fun i => decide (cmp (space.getD i d₂) target ≥ 0)) <
        space.length := by omega
    rw [if_neg hge, if_neg hge, List.getD_eq_getElem space d₁ hlt,
      List.getD_eq_getElem space d₂ hlt]

/-! ### Claim theorems -/

/-- C7: every convenience derivation of the `Key` adapter is definable purely in
terms of the key-derived less-than and compares only the extracted keys:
`Eq` holds iff neither `Lt(a,b)` nor `Lt(b,a)`, `Ne` is its negation, `Le(a,b)`
iff not `Lt(b,a)`, `Ge(a,b)` iff not `Lt(a,b)`, `Gt(a,b)` iff `Lt(b,a)`, and
`Cmp(a,b)` is negative iff `Lt(a,b)`, positive iff `Lt(b,a)`, zero iff
neither. -/
theorem key_derivations_consistent {I : Type u} {O : Type v} [LinearOrder O]
    (k : Key I O) (a b : I) :
    (k.Eq a b = true ↔ k.Lt a b = false ∧ k.Lt b a = false) ∧
    k.Ne a b = !k.Eq a b ∧
    k.Le a b = !k.Lt b a ∧
    k.Ge a b = !k.Lt a b ∧
    k.Gt a b = k.Lt b a ∧
    (k.Cmp a b < 0 ↔ k.Lt a b = true) ∧
    (0 < k.Cmp a b ↔ k.Lt b a = true) ∧
    (k.Cmp a b = 0 ↔ k.Lt a b = false ∧ k.Lt b a = false) := by
  refine ⟨?_, ?_, ?_, ?_, ?_, ?_, ?_, ?_⟩
  · simp only [Key.Eq, Key.Lt, decide_eq_true_eq, decide_eq_false_iff_not, not_lt]
    exact ⟨fun h => ⟨le_of_eq h.symm, le_of_eq h⟩, fun h => le_antisymm h.2 h.1⟩
  · simp [Key.Ne, Key.Eq, decide_not]
  · rw [Key.Le, Key.Lt, ← decide_not]
    exact decide_eq_decide.mpr not_lt.symm
  · rw [Key.Ge, Key.Lt, ← decide_not]
    exact decide_eq_decide.mpr not_lt.symm
  · rw [Key.Gt, Key.Lt]
  · rw [Key.Cmp, Key.Lt]
    rcases lt_trichotomy (k a) (k b) with h | h | h
    · simp [h, ne_of_lt h]
    · simp [h, lt_irrefl]
    · simp [not_lt_of_gt h, (ne_of_lt h).symm]
  · rw [Key.Cmp, Key.Lt]
    rcases lt_trichotomy (k a) (k b) with h | h | h
    · simp [h, ne_of_lt h, lt_asymm h]
    · simp [h, lt_irrefl]
    · simp [lt_asymm h, (ne_of_lt h).symm, h]
  · rw [Key.Cmp, Key.Lt, Key.Lt]
    rcases lt_trichotomy (k a) (k b) with h | h | h
    · simp [h, ne_of_lt h]
    · simp [h, lt_irrefl]
    · simp [lt_asymm h, (ne_of_lt h).symm, h]

/-- C8: the (spec-modelled) `Sort` is idempotent: sorting an already sorted
slice returns it unchanged, so `Sort (Sort S) = Sort S`. -/
theorem sort_idempotent [LinearOrder α] (x : List α) :
    Sort' (Sort' x) = Sort' x := by
  have hsorted : List.Sorted (notLess fun a b : α => decide (a < b)) (Sort' x) :=
    sortFunc_pairwise _ lt_asymm_bool not_lt_trans_bool x
  exact List.Sorted.insertionSort_eq hsorted

/-- C5: `Sorted` and `SortedFunc` do not change their argument (in this
functional embedding the argument is a value; the theorem records that the
clone read by the sort has exactly the argument's contents) and return the
result of cloning and then sorting the clone, with the same length and multiset
of elements as the argument. -/
theorem sorted_variants_frame {α β : Type u} [LinearOrder α]
    (x : List α) (less : β → β → Bool) (y : List β) :
    Clone x = x ∧ Clone y = y ∧
    Sorted x = Sort' (Clone x) ∧
    SortedFunc less y = SortFunc less (Clone y) ∧
    (Sorted x).Perm x ∧ (SortedFunc less y).Perm y ∧
    (Sorted x).length = x.length ∧ (SortedFunc less y).length = y.length := by
  have hpx : (Sorted x).Perm x := by
    rw [Sorted, clone_eq]
    exact sortFunc_perm _ x
  have hpy : (SortedFunc less y).Perm y := by
    rw [SortedFunc, clone_eq]
    exact sortFunc_perm less y
  exact ⟨clone_eq x, clone_eq y, rfl, rfl, hpx, hpy, hpx.length_eq, hpy.length_eq⟩

/-- C4: on a monotonic predicate (false strictly below a threshold `k ≤ n` and
true from `k` up to `n`), `search n f` returns the least index where `f` is
true, namely `k`, and in particular returns `n` when `f` is false
everywhere. -/
theorem search_finds_threshold (n : Nat) (f : Nat → Bool) (k : Nat)
    (hk : k ≤ n)
    (hlo : ∀ i, i < k → f i = false)
    (hhi : ∀ i, k ≤ i → i < n → f i = true) :
    search n f = k := by
  have hmono : ∀ p q, p ≤ q → q < n → f p = true → f q = true := by
    intro p q hpq hq hfp
    have hpk : k ≤ p := by
      by_contra hkp
      rw [hlo p (by omega)] at hfp
      cases hfp
    exact hhi q (by omega) hq
  obtain ⟨hle, hpre, hsuf⟩ := search_inv f n hmono
  by_contra hne
  rcases Nat.lt_or_ge (search n f) k with hlt | hge
  · have h1 := hsuf (search n f) (le_refl _) (by omega)
    have h2 := hlo (search n f) hlt
    rw [h1] at h2
    cases h2
  · have hkl : k < search n f := by omega
    have h1 := hpre k hkl (by omega)
    have h2 := hhi k (le_refl k) (by omega)
    rw [h1] at h2
    cases h2

/-- Witness for C4: with `n = 4` and the predicate true from index 2 on,
`search` returns 2. -/
theorem search_finds_threshold_w : search 4 (fun i => decide (2 ≤ i)) = 2 :=
  search_finds_threshold 4 (fun i => decide (2 ≤ i)) 2 (by omega)
    (fun i hi => by simp only [decide_eq_false_iff_not]; omega)
    (fun i hi _ => by simp only [decide_eq_true_eq]; omega)

/-- C10: `search n f` never evaluates `f` outside `0 ≤ h < n` (its value only
depends on `f`'s values there, and for `n = 0` it is `0` without consulting `f`
at all), and consequently `BinarySearch` / `BinarySearchFunc` never read the
slice outside `0 .. len-1`: their result is independent of the value an
out-of-range read would produce, for every slice and target, sorted or not. -/
theorem search_stays_in_bounds :
    (∀ (n : Nat) (f g : Nat → Bool), (∀ m, m < n → f m = g m) →
      search n f = search n g) ∧
    (∀ f : Nat → Bool, search 0 f = 0) ∧
    (∀ (α : Type u) (_ : LinearOrder α) (d₁ d₂ target : α) (space : List α),
      binarySearchD d₁ target space = binarySearchD d₂ target space) ∧
    (∀ (α : Type u) (cmp : α → α → Int) (d₁ d₂ target : α) (space : List α),
      binarySearchFuncD cmp d₁ target space = binarySearchFuncD cmp d₂ target space) := by
  refine ⟨search_congr, ?_, ?_, ?_⟩
  · intro f
    exact searchLoop_stop f 0 0 (by omega)
  · intro α inst d₁ d₂ target space
    exact binarySearchD_read_irrelevant d₁ d₂ target space
  · intro α cmp d₁ d₂ target space
    exact binarySearchFuncD_read_irrelevant cmp d₁ d₂ target space

/-- Witness for C10: two predicates that agree on `0 ≤ i < 3` give the same
`search` result. -/
theorem search_stays_in_bounds_w :
    search 3 (fun i => decide (1 ≤ i)) = search 3 (fun i => decide (0 < i)) :=
  search_stays_in_bounds.{0}.1 3 (fun i => decide (1 ≤ i)) (fun i => decide (0 < i))
    (fun m _ => by simp [Nat.lt_iff_add_one_le])

/-- C6: `IsSorted x` is true iff `x` is ascending — no inversion `x[j] < x[i]`
for `i < j` — and likewise `IsSortedFunc` under a strict-weak-ordering `less`
(the transitivity of not-less is what the claim's strict-weak-ordering
hypothesis provides); in particular `IsSorted [1,1,2,3] = true` and
`IsSorted [2,1] = false`. -/
theorem isSorted_iff_no_inversion {α β : Type u} [LinearOrder α]
    (x : List α) (less : β → β → Bool)
    (h₂ : ∀ a b c, less b a = false → less c b = false → less c a = false)
    (y : List β) :
    (IsSorted x = true ↔ ∀ i j : Fin x.length, i < j → ¬ (x.get j < x.get i)) ∧
    (IsSortedFunc less y = true ↔
      ∀ i j : Fin y.length, i < j → less (y.get j) (y.get i) = false) ∧
    IsSorted ([1, 1, 2, 3] : List ℕ) = true ∧
    IsSorted ([2, 1] : List ℕ) = false := by
  refine ⟨?_, ?_, by decide, by decide⟩
  · haveI : IsTrans α (notLess fun a b : α => decide (a < b)) :=
      ⟨notLess_trans _ not_lt_trans_bool⟩
    rw [isSorted_eq_isSortedFunc, isSortedFunc_iff_chain, List.chain'_iff_pairwise,
      List.pairwise_iff_get]
    simp only [notLess, decide_eq_false_iff_not]
  · haveI : IsTrans β (notLess less) := ⟨notLess_trans less h₂⟩
    rw [isSortedFunc_iff_chain, List.chain'_iff_pairwise, List.pairwise_iff_get]
    simp only [notLess]

/-- Witness for C6: the `IsSortedFunc` characterisation applied to `<` on `ℕ`
and the list `[1, 2]`. -/
theorem isSorted_iff_no_inversion_w :
    IsSortedFunc (fun a b : ℕ => decide (a < b)) [1, 2] = true :=
  ((isSorted_iff_no_inversion ([] : List ℕ) (fun a b : ℕ => decide (a < b))
    not_lt_trans_bool [1, 2]).2.1).mpr (by decide)

/-- C1: for a strict-weak-ordering `less` (asymmetric, with transitive
not-less), `SortFunc less` returns a permutation of its input with no
inversion — for all positions `i < j` the element at `j` is not less than the
element at `i` — so `IsSortedFunc` accepts the result; likewise the
(spec-modelled) `Sort` for an ordered element type. -/
theorem sortFunc_sorts {α β : Type u} [LinearOrder β] (less : α → α → Bool)
    (h₁ : ∀ a b, less a b = true → less b a = false)
    (h₂ : ∀ a b c, less b a = false → less c b = false → less c a = false)
    (x : List α) (y : List β) :
    (SortFunc less x).Perm x ∧
    (∀ i j : Fin (SortFunc less x).length, i < j →
      less ((SortFunc less x).get j) ((SortFunc less x).get i) = false) ∧
    IsSortedFunc less (SortFunc less x) = true ∧
    (Sort' y).Perm y ∧
    (∀ i j : Fin (Sort' y).length, i < j → ¬ ((Sort' y).get j < (Sort' y).get i)) ∧
    IsSorted (Sort' y) = true := by
  refine ⟨sortFunc_perm less x, ?_, sortFunc_isSortedFunc less h₁ h₂ x,
    sortFunc_perm _ y, ?_, ?_⟩
  · have hp := sortFunc_pairwise less h₁ h₂ x
    rw [List.pairwise_iff_get] at hp
    intro i j hij
    exact hp i j hij
  · have hp := sortFunc_pairwise _ lt_asymm_bool not_lt_trans_bool y
    rw [List.pairwise_iff_get] at hp
    intro i j hij
    have h := hp i j hij
    simpa [notLess] using h
  · rw [isSorted_eq_isSortedFunc]
    exact sortFunc_isSortedFunc _ lt_asymm_bool not_lt_trans_bool y

/-- Witness for C1: sorting `[3, 1, 2]` by `<` on `ℕ` yields a list accepted by
`IsSortedFunc`. -/
theorem sortFunc_sorts_w :
    IsSortedFunc (fun a b : ℕ => decide (a < b))
      (SortFunc (fun a b : ℕ => decide (a < b)) [3, 1, 2]) = true :=
  (sortFunc_sorts (fun a b : ℕ => decide (a < b)) lt_asymm_bool not_lt_trans_bool
    [3, 1, 2] ([] : List ℕ)).2.2.1

theorem sortStableFunc_eq_sortFunc (less : α → α → Bool) (x : List α) :
    SortStableFunc less x = SortFunc less x := rfl

/-- C2: for a strict-weak-ordering comparator, `SortStableFunc` (spec-modelled)
applied to the index-tagged input returns a permutation of it, sorted ascending
on the values, and whenever two result positions `i < j` hold equivalent values
(neither less than the other) their original indices are in increasing order:
equivalent elements keep their pre-call relative order. -/
theorem sortStableFunc_stable {β : Type u} (less : β → β → Bool)
    (h₁ : ∀ a b, less a b = true → less b a = false)
    (h₂ : ∀ a b c, less b a = false → less c b = false → less c a = false)
    (x : List β) :
    (SortStableFunc (fun p q : ℕ × β => less p.2 q.2) x.enum).Perm x.enum ∧
    (∀ i j : Fin (SortStableFunc (fun p q : ℕ × β => less p.2 q.2) x.enum).length,
      i < j →
      less ((SortStableFunc (fun p q : ℕ × β => less p.2 q.2) x.enum).get j).2
        ((SortStableFunc (fun p q : ℕ × β => less p.2 q.2) x.enum).get i).2 = false) ∧
    (∀ i j : Fin (SortStableFunc (fun p q : ℕ × β => less p.2 q.2) x.enum).length,
      i < j →
      less ((SortStableFunc (fun p q : ℕ × β => less p.2 q.2) x.enum).get i).2
        ((SortStableFunc (fun p q : ℕ × β => less p.2 q.2) x.enum).get j).2 = false →
      less ((SortStableFunc (fun p q : ℕ × β => less p.2 q.2) x.enum).get j).2
        ((SortStableFunc (fun p q : ℕ × β => less p.2 q.2) x.enum).get i).2 = false →
      ((SortStableFunc (fun p q : ℕ × β => less p.2 q.2) x.enum).get i).1 <
        ((SortStableFunc (fun p q : ℕ × β => less p.2 q.2) x.enum).get j).1) := by
  refine ⟨sortFunc_perm _ x.enum, ?_, ?_⟩
  · have hp := sortFunc_pairwise (fun p q : ℕ × β => less p.2 q.2)
      (fun p q hpq => h₁ p.2 q.2 hpq)
      (fun p q r hpq hqr => h₂ p.2 q.2 r.2 hpq hqr) x.enum
    rw [List.pairwise_iff_get] at hp
    intro i j hij
    exact hp i j hij
  · have htag : x.enum.Pairwise (tagOrdered less) :=
      (pairwise_fst_lt_enum x).imp fun h => fun _ _ => h
    have hstab : (SortStableFunc (fun p q : ℕ × β => less p.2 q.2) x.enum).Pairwise
        (tagOrdered less) :=
      pairwise_insertionSort_tagOrdered less x.enum htag
    rw [List.pairwise_iff_get] at hstab
    intro i j hij h1 h2
    exact hstab i j hij h1 h2

/-- Witness for C2: the permutation component at `<` on `ℕ` and the input
`[1, 1, 0]` (the spec's stability fixture keyed by the value). -/
theorem sortStableFunc_stable_w :
    (SortStableFunc (fun p q : ℕ × ℕ => decide (p.2 < q.2))
      ([1, 1, 0] : List ℕ).enum).Perm ([1, 1, 0] : List ℕ).enum :=
  (sortStableFunc_stable (fun a b : ℕ => decide (a < b)) lt_asymm_bool
    not_lt_trans_bool [1, 1, 0]).1

theorem binarySearchFuncD_fst (cmp : α → α → Int) (d target : α) (space : List α) :
    (binarySearchFuncD cmp d target space).1 =
      search space.length fun i => decide (cmp (space.getD i d) target ≥ 0) := by
  simp only [binarySearchFuncD]
  split
  · rfl
  · split <;> rfl

theorem binarySearchD_fst [LinearOrder α] (d target : α) (space : List α) :
    (binarySearchD d target space).1 =
      search space.length fun i => decide (space.getD i d ≥ target) := by
  simp only [binarySearchD]
  split
  · rfl
  · split <;> rfl

theorem binarySearchFuncD_found (cmp : α → α → Int) (d target : α) (space : List α) :
    (binarySearchFuncD cmp d target space).2 = true ↔
      (binarySearchFuncD cmp d target space).1 < space.length ∧
        cmp (space.getD (binarySearchFuncD cmp d target space).1 d) target = 0 := by
  rw [binarySearchFuncD_fst cmp d target space]
  simp only [binarySearchFuncD]
  split
  · rename_i hge
    simp only [Bool.false_eq_true, false_iff]
    intro h
    omega
  · rename_i hge
    split
    · rename_i hne
      simp only [Bool.false_eq_true, false_iff]
      intro h
      exact hne h.2
    · rename_i hne
      simp only [true_iff]
      exact ⟨by omega, not_ne_iff.mp hne⟩

theorem binarySearchD_found [LinearOrder α] (d target : α) (space : List α) :
    (binarySearchD d target space).2 = true ↔
      (binarySearchD d target space).1 < space.length ∧
        space.getD (binarySearchD d target space).1 d = target := by
  rw [binarySearchD_fst d target space]
  simp only [binarySearchD]
  split
  · rename_i hge
    simp only [Bool.false_eq_true, false_iff]
    intro h
    omega
  · rename_i hge
    split
    · rename_i hne
      simp only [Bool.false_eq_true, false_iff]
      intro h
      exact hne h.2
    · rename_i hne
      simp only [true_iff]
      exact ⟨by omega, not_ne_iff.mp hne⟩

theorem binarySearchFunc_inv (cmp : α → α → Int) (target : α) (space : List α)
    (hsort : space.Pairwise fun a b => cmp a b ≤ 0)
    (hcompat : ∀ a b t, cmp a b ≤ 0 → 0 ≤ cmp a t → 0 ≤ cmp b t) :
    (BinarySearchFunc cmp target space).1 ≤ space.length ∧
    (∀ (i : ℕ) (hi : i < space.length), i < (BinarySearchFunc cmp target space).1 →
      cmp space[i] target < 0) ∧
    (∀ (i : ℕ) (hi : i < space.length), (BinarySearchFunc cmp target space).1 ≤ i →
      0 ≤ cmp space[i] target) ∧
    ((BinarySearchFunc cmp target space).2 = true ↔
      ∃ h : (BinarySearchFunc cmp target space).1 < space.length,
        cmp (space.get ⟨(BinarySearchFunc cmp target space).1, h⟩) target = 0) := by
  have hmono : ∀ p q, p ≤ q → q < space.length →
      (fun i => decide (cmp (space.getD i target) target ≥ 0)) p = true →
      (fun i => decide (cmp (space.getD i target) target ≥ 0)) q = true := by
    intro p q hpq hq hfp
    have hp : p < space.length := by omega
    simp only [decide_eq_true_eq, ge_iff_le] at hfp ⊢
    rcases eq_or_lt_of_le hpq with rfl | hlt
    · exact hfp
    · have hle : cmp space[p] space[q] ≤ 0 :=
        List.pairwise_iff_getElem.mp hsort p q hp hq hlt
      rw [List.getD_eq_getElem space target hp] at hfp
      rw [List.getD_eq_getElem space target hq]
      exact hcompat space[p] space[q] target hle hfp
  obtain ⟨hle, hpre, hsuf⟩ :=
    search_inv (fun i => decide (cmp (space.getD i target) target ≥ 0))
      space.length hmono
  have hfst := binarySearchFuncD_fst cmp target target space
  rw [BinarySearchFunc, hfst]
  refine ⟨hle, ?_, ?_, ?_⟩
  · intro i hi hipos
    have h := hpre i hipos hi
    simp only [decide_eq_false_iff_not, ge_iff_le, not_le,
      List.getD_eq_getElem space target hi] at h
    exact h
  · intro i hi hposi
    have h := hsuf i hposi hi
    simp only [decide_eq_true_eq, ge_iff_le,
      List.getD_eq_getElem space target hi] at h
    exact h
  · rw [binarySearchFuncD_found cmp target target space,
      binarySearchFuncD_fst cmp target target space]
    constructor
    · rintro ⟨hlt, heq⟩
      refine ⟨hlt, ?_⟩
      rw [List.get_eq_getElem]
      rw [List.getD_eq_getElem space target hlt] at heq
      exact heq
    · rintro ⟨hlt, heq⟩
      refine ⟨hlt, ?_⟩
      rw [List.getD_eq_getElem space target hlt]
      rw [List.get_eq_getElem] at heq
      exact heq

theorem search_spec_example :
    search ([1, 2, 2, 3] : List ℕ).length
      (fun i => decide (([1, 2, 2, 3] : List ℕ).getD i 2 ≥ 2)) = 1 := by
  refine search_finds_threshold _ _ 1 (by decide) ?_ ?_
  · intro i hi
    interval_cases i
    decide
  · intro i h1 h2
    have h4 : i < 4 := by simpa using h2
    interval_cases i <;> decide

theorem binarySearch_spec_example :
    BinarySearch (2 : ℕ) [1, 2, 2, 3] = (1, true) := by
  rw [BinarySearch]
  simp only [binarySearchD, search_spec_example]
  decide

theorem binarySearch_inv [LinearOrder α] (target : α) (space : List α)
    (hsort : space.Pairwise (· ≤ ·)) :
    (BinarySearch target space).1 ≤ space.length ∧
    (∀ (i : ℕ) (hi : i < space.length), i < (BinarySearch target space).1 →
      space[i] < target) ∧
    (∀ (i : ℕ) (hi : i < space.length), (BinarySearch target space).1 ≤ i →
      target ≤ space[i]) ∧
    ((BinarySearch target space).2 = true ↔
      ∃ h : (BinarySearch target space).1 < space.length,
        space.get ⟨(BinarySearch target space).1, h⟩ = target) := by
  have hmono : ∀ p q, p ≤ q → q < space.length →
      (fun i => decide (space.getD i target ≥ target)) p = true →
      (fun i => decide (space.getD i target ≥ target)) q = true := by
    intro p q hpq hq hfp
    have hp : p < space.length := by omega
    simp only [decide_eq_true_eq, ge_iff_le] at hfp ⊢
    rcases eq_or_lt_of_le hpq with rfl | hlt
    · exact hfp
    · have hle : space[p] ≤ space[q] :=
        List.pairwise_iff_getElem.mp hsort p q hp hq hlt
      rw [List.getD_eq_getElem space target hp] at hfp
      rw [List.getD_eq_getElem space target hq]
      exact le_trans hfp hle
  obtain ⟨hle, hpre, hsuf⟩ :=
    search_inv (fun i => decide (space.getD i target ≥ target)) space.length hmono
  have hfst := binarySearchD_fst target target space
  rw [BinarySearch, hfst]
  refine ⟨hle, ?_, ?_, ?_⟩
  · intro i hi hipos
    have h := hpre i hipos hi
    simp only [decide_eq_false_iff_not, ge_iff_le, not_le,
      List.getD_eq_getElem space target hi] at h
    exact h
  · intro i hi hposi
    have h := hsuf i hposi hi
    simp only [decide_eq_true_eq, ge_iff_le,
      List.getD_eq_getElem space target hi] at h
    exact h
  · rw [binarySearchD_found target target space, binarySearchD_fst target target space]
    constructor
    · rintro ⟨hlt, heq⟩
      refine ⟨hlt, ?_⟩
      rw [List.get_eq_getElem]
      rw [List.getD_eq_getElem space target hlt] at heq
      exact heq
    · rintro ⟨hlt, heq⟩
      refine ⟨hlt, ?_⟩
      rw [List.getD_eq_getElem space target hlt]
      rw [List.get_eq_getElem] at heq
      exact heq

/-- C3: on a slice sorted ascending under the comparator in use,
`BinarySearchFunc cmp target space` (and `BinarySearch` for ordered elements)
returns `(position, found)` where `position` is the least index whose element
is not less than `target` (`len(space)` when there is none: everything below
`position` is strictly less, everything from `position` on is not less) and
`found` is true exactly when `position` is in range and the element there is
equivalent to `target`; in particular on a run of duplicates the position is
the leftmost match, e.g. `BinarySearch 2 [1,2,2,3] = (1, true)`. -/
theorem binarySearch_leftmost {α β : Type u} [LinearOrder β]
    (cmp : α → α → Int) (target : α) (space : List α)
    (hsort : space.Pairwise fun a b => cmp a b ≤ 0)
    (hcompat : ∀ a b t, cmp a b ≤ 0 → 0 ≤ cmp a t → 0 ≤ cmp b t)
    (target' : β) (space' : List β) (hsort' : space'.Pairwise (· ≤ ·)) :
    ((BinarySearchFunc cmp target space).1 ≤ space.length ∧
      (∀ (i : ℕ) (hi : i < space.length), i < (BinarySearchFunc cmp target space).1 →
        cmp space[i] target < 0) ∧
      (∀ (i : ℕ) (hi : i < space.length), (BinarySearchFunc cmp target space).1 ≤ i →
        0 ≤ cmp space[i] target) ∧
      ((BinarySearchFunc cmp target space).2 = true ↔
        ∃ h : (BinarySearchFunc cmp target space).1 < space.length,
          cmp (space.get ⟨(BinarySearchFunc cmp target space).1, h⟩) target = 0)) ∧
    ((BinarySearch target' space').1 ≤ space'.length ∧
      (∀ (i : ℕ) (hi : i < space'.length), i < (BinarySearch target' space').1 →
        space'[i] < target') ∧
      (∀ (i : ℕ) (hi : i < space'.length), (BinarySearch target' space').1 ≤ i →
        target' ≤ space'[i]) ∧
      ((BinarySearch target' space').2 = true ↔
        ∃ h : (BinarySearch target' space').1 < space'.length,
          space'.get ⟨(BinarySearch target' space').1, h⟩ = target')) ∧
    BinarySearch (2 : ℕ) [1, 2, 2, 3] = (1, true) := by
  refine ⟨binarySearchFunc_inv cmp target space hsort hcompat,
    binarySearch_inv target' space' hsort', binarySearch_spec_example⟩

/-- Witness for C3: the spec's concrete scenario
`BinarySearch 2 [1,2,2,3] = (1, true)`, obtained from the theorem at `cmp`
the three-way comparison on `ℕ`, with all hypotheses discharged concretely. -/
theorem binarySearch_leftmost_w : BinarySearch (2 : ℕ) [1, 2, 2, 3] = (1, true) :=
  (binarySearch_leftmost (fun a b : ℕ => (a : Int) - b) 2 [1, 2, 2, 3]
    (by decide) (fun a b t h1 h2 => by dsimp only at h1 h2 ⊢; omega) (2 : ℕ)
    [1, 2, 2, 3] (by decide)).2.2

end Iters
